import Mathlib

/-!
Verification of the CREATE2 vanity-address search in `scripts/deploy-upgradeable.ts`
and the address derivation in `contracts/Create2Factory.sol`.

Modelling choices (shallow embedding):
* Byte sequences are `List Nat` (each element a byte value `< 256` where it matters;
  hypotheses state the bound where a proof needs it).
* JavaScript strings are modelled as `List Nat` of UTF-16 code units
  (`48 = '0'`, `120 = 'x'`, `97 = 'a'`, ...).
* `keccak256` is an external library primitive (viem / the EVM); the development is
  parametric over an arbitrary function `keccak : List Nat → List Nat`, constrained
  by hypotheses (32-byte output of bytes `< 256`) only where a claim needs them.
* viem's `getCreate2Address` renders the resulting 20 bytes as an EIP-55
  checksummed hex string; every comparison in the script first lowercases that
  string, so addresses are modelled as their 20 raw bytes and rendered with the
  lowercase hex writer `bytesToHex`.
* `toHex(i)` followed by viem's internal `hexToBytes` (which left-pads an
  odd-length hex string with one `'0'`) is embedded as `saltPreimage`.
-/

/-- Byte sequences (`Uint8Array` / Solidity `bytes`): a list of byte values. -/
abbrev Bytes := List Nat

/-- Hex digit value `0..15` to its lowercase character code
(`0..9 ↦ 48..57`, `10..15 ↦ 97..102`), as produced by JS `Number.toString(16)`. -/
def hexCharCode (d : Nat) : Nat :=
  if d < 10 then 48 + d else 87 + d

/-- Character code of a hex digit back to its value (inverse of `hexCharCode`
on digit codes). -/
def hexCharVal (c : Nat) : Nat :=
  if 97 ≤ c then c - 87 else c - 48

/-- One byte as two lowercase hex character codes, high nibble first. -/
def byteHex (b : Nat) : List Nat :=
  [hexCharCode (b / 16), hexCharCode (b % 16)]

/-- A byte sequence as its lowercase hex character codes (no `0x` marker):
the digits of `address.toLowerCase()` after the marker. -/
def bytesToHex (bs : Bytes) : List Nat :=
  bs.flatMap byteHex

/-- JS `String.prototype.toLowerCase` on one UTF-16 code unit, restricted to the
ASCII range that matters for hex strings: `'A'..'Z'` (65..90) map down by 32. -/
def lowerCode (c : Nat) : Nat :=
  if 65 ≤ c ∧ c ≤ 90 then c + 32 else c

/-- JS `String.prototype.toLowerCase` on a string of code units. -/
def toLowerStr (s : List Nat) : List Nat :=
  s.map lowerCode

/-- Hex digits of `n`, with explicit fuel (structural recursion so the kernel
can evaluate it; `toHexStr` supplies ample fuel). -/
def toHexStrF (fuel n : Nat) : List Nat :=
  match fuel with
  | 0 => [hexCharCode (n % 16)]
  | fuel + 1 =>
    if n < 16 then [hexCharCode n]
    else toHexStrF fuel (n / 16) ++ [hexCharCode (n % 16)]

/-- JS `i.toString(16)` for a non-negative integer: minimal lowercase hex
digits, `"0"` for zero. This is what viem's `toHex(i)` puts after `"0x"`. -/
def toHexStr (n : Nat) : List Nat :=
  toHexStrF n n

/-- Parse consecutive pairs of hex character codes into bytes
(viem `hexToBytes` after its parity padding). -/
def hexPairs : List Nat → Bytes
  | c1 :: c2 :: rest => (16 * hexCharVal c1 + hexCharVal c2) :: hexPairs rest
  | _ => []

/-- viem `hexToBytes`: an odd-length hex string is left-padded with one `'0'`
(code 48), then digit pairs become bytes. -/
def hexToBytes (s : List Nat) : Bytes :=
  hexPairs (if s.length % 2 = 1 then 48 :: s else s)

/-- The byte string actually hashed for counter `i` by `keccak256(toHex(i))`:
viem converts the hex string `toHex(i)` to bytes before hashing. -/
def saltPreimage (i : Nat) : Bytes :=
  hexToBytes (toHexStr i)

/-- The candidate salt for counter `i`: `keccak256(toHex(i))`
(line 16 of `deploy-upgradeable.ts`), parametric in the hash primitive. -/
def generateSalt (keccak : Bytes → Bytes) (i : Nat) : Bytes :=
  keccak (saltPreimage i)

/-- Big-endian base-256 digits of `n` with explicit fuel (structural so the
kernel can evaluate it; `beDigits` supplies ample fuel). -/
def beDigitsF (fuel n : Nat) : Bytes :=
  match fuel with
  | 0 => []
  | fuel + 1 => if n = 0 then [] else beDigitsF fuel (n / 256) ++ [n % 256]

/-- Big-endian base-256 digits of `n`, empty for `0` (helper for the
spec-side encoding). -/
def beDigits (n : Nat) : Bytes :=
  beDigitsF n n

/-- Spec-side definition, following §4.2's words: the minimal big-endian byte
encoding of the counter `i` (one zero byte for `i = 0`, as `"0x0"` encodes). -/
def minimalBeBytes (n : Nat) : Bytes :=
  if n = 0 then [0] else beDigits n

/-- A byte sequence read as a big-endian natural number
(Solidity `uint256(bytes32)`). -/
def bytesToNatBE (bs : Bytes) : Nat :=
  bs.foldl (fun a b => a * 256 + b) 0

/-- A natural number written as `k` big-endian bytes
(Solidity `address(uint160 value)` for `k = 20`). -/
def natToBytesBE : Nat → Nat → Bytes
  | 0, _ => []
  | k + 1, n => natToBytesBE k (n / 256) ++ [n % 256]

/-- viem `getCreate2Address`: the last 20 bytes of
`keccak256(0xff ++ from ++ salt ++ bytecodeHash)` (a 32-byte hash, so bytes
12..31), before checksummed rendering. -/
def getCreate2Address (keccak : Bytes → Bytes)
    (deployer salt bytecodeHash : Bytes) : Bytes :=
  (keccak (255 :: (deployer ++ (salt ++ bytecodeHash)))).drop 12

/-- `Create2Factory.computeAddress` (`Create2Factory.sol`, lines 34–41):
`address(uint160(uint256(keccak256(abi.encodePacked(bytes1(0xff), address(this),
salt, bytecodeHash)))))` — the hash read as a 256-bit number, truncated to
160 bits, written back as a 20-byte address. -/
def computeAddress (keccak : Bytes → Bytes)
    (self salt bytecodeHash : Bytes) : Bytes :=
  natToBytesBE 20 (bytesToNatBE (keccak (255 :: (self ++ (salt ++ bytecodeHash)))) % 2 ^ 160)

/-- The `{salt, address}` object returned on success. -/
structure SearchResult where
  salt : Bytes
  address : Bytes
deriving Repr, DecidableEq

/-- The loop body of `findVanitySalt` (lines 15–31): counter `i`, with
`fuel = maxIterations - i` remaining iterations. Mirrors the source: compute
`salt` and `address`, test `address.toLowerCase().startsWith('0x' + prefix)`
(codes `48 = '0'`, `120 = 'x'`), return on match, else continue. -/
def vanityLoop (keccak : Bytes → Bytes) (deployer initCodeHash : Bytes)
    (pfx : List Nat) : Nat → Nat → Option SearchResult
  | _, 0 => none
  | i, fuel + 1 =>
    let salt := generateSalt keccak i
    let address := getCreate2Address keccak deployer salt initCodeHash
    if (48 :: 120 :: pfx).isPrefixOf (48 :: 120 :: bytesToHex address) then
      some { salt := salt, address := address }
    else
      vanityLoop keccak deployer initCodeHash pfx (i + 1) fuel

/-- `findVanitySalt` (lines 7–34): lowercase the desired prefix, then scan
counters `0, 1, …, maxIterations - 1`, returning the first match or `none`. -/
def findVanitySalt (keccak : Bytes → Bytes) (deployer initCodeHash : Bytes)
    (desiredPrefix : List Nat) (maxIterations : Nat) : Option SearchResult :=
  vanityLoop keccak deployer initCodeHash (toLowerStr desiredPrefix) 0 maxIterations

/-- The default for the omitted `maxIterations` parameter (line 11). -/
def defaultMaxIterations : Nat := 100000000

/-- `findVanitySalt` as called with the parameter omitted
(`findVanitySalt(deployer, initCodeHash, "8004a")`). -/
def findVanitySaltDefault (keccak : Bytes → Bytes) (deployer initCodeHash : Bytes)
    (desiredPrefix : List Nat) : Option SearchResult :=
  findVanitySalt keccak deployer initCodeHash desiredPrefix defaultMaxIterations

/-- Whether the address derived at counter `i` passes the loop's prefix test. -/
def matchAt (keccak : Bytes → Bytes) (deployer initCodeHash : Bytes)
    (pfx : List Nat) (i : Nat) : Bool :=
  (48 :: 120 :: pfx).isPrefixOf
    (48 :: 120 :: bytesToHex (getCreate2Address keccak deployer (generateSalt keccak i) initCodeHash))

/-- The loop with the progress-reporting branch made observable (lines 27–30):
alongside the result, the list of iteration counts `i` with
`i % 100000 === 0 && i > 0` at which `console.log` fires, in order. The log
statement runs after the match test, so a matching iteration logs nothing. -/
def vanityLoopLogged (keccak : Bytes → Bytes) (deployer initCodeHash : Bytes)
    (pfx : List Nat) : Nat → Nat → Option SearchResult × List Nat
  | _, 0 => (none, [])
  | i, fuel + 1 =>
    let salt := generateSalt keccak i
    let address := getCreate2Address keccak deployer salt initCodeHash
    if (48 :: 120 :: pfx).isPrefixOf (48 :: 120 :: bytesToHex address) then
      (some { salt := salt, address := address }, [])
    else
      let rest := vanityLoopLogged keccak deployer initCodeHash pfx (i + 1) fuel
      if i % 100000 = 0 ∧ 0 < i then (rest.1, i :: rest.2) else rest

/-- `findVanitySalt` with the progress reports kept as data. -/
def findVanitySaltLogged (keccak : Bytes → Bytes) (deployer initCodeHash : Bytes)
    (desiredPrefix : List Nat) (maxIterations : Nat) : Option SearchResult × List Nat :=
  vanityLoopLogged keccak deployer initCodeHash (toLowerStr desiredPrefix) 0 maxIterations

/-! ### The salt preimage is the minimal big-endian encoding of the counter -/

theorem hexCharVal_hexCharCode (d : Nat) (h : d < 16) :
    hexCharVal (hexCharCode d) = d := by
  unfold hexCharCode hexCharVal
  split <;> split <;> omega

theorem toHexStrF_fuel_irrel (fuel1 : Nat) :
    ∀ fuel2 n, n ≤ fuel1 → n ≤ fuel2 → toHexStrF fuel1 n = toHexStrF fuel2 n := by
  induction fuel1 with
  | zero =>
    intro fuel2 n h1 _h2
    have hn : n = 0 := by omega
    subst hn
    cases fuel2 with
    | zero => rfl
    | succ f => simp [toHexStrF]
  | succ f1 ih =>
    intro fuel2 n h1 h2
    cases fuel2 with
    | zero =>
      have hn : n = 0 := by omega
      subst hn
      simp [toHexStrF]
    | succ f2 =>
      simp only [toHexStrF]
      rcases Nat.lt_or_ge n 16 with h16 | h16
      · simp [h16]
      · rw [if_neg (by omega), if_neg (by omega)]
        have hd1 : n / 16 ≤ f1 := by
          have hlt : n / 16 < n := Nat.div_lt_self (by omega) (by omega)
          omega
        have hd2 : n / 16 ≤ f2 := by
          have hlt : n / 16 < n := Nat.div_lt_self (by omega) (by omega)
          omega
        rw [ih f2 (n / 16) hd1 hd2]

theorem toHexStr_small (n : Nat) (h : n < 16) : toHexStr n = [hexCharCode n] := by
  unfold toHexStr
  cases n with
  | zero => rfl
  | succ m => simp [toHexStrF, h]

theorem toHexStr_step (n : Nat) (h : 16 ≤ n) :
    toHexStr n = toHexStr (n / 16) ++ [hexCharCode (n % 16)] := by
  unfold toHexStr
  cases n with
  | zero => omega
  | succ m =>
    simp only [toHexStrF]
    rw [if_neg (show ¬(m + 1 < 16) by omega)]
    have hd : (m + 1) / 16 ≤ m := by
      have hlt : (m + 1) / 16 < m + 1 := Nat.div_lt_self (by omega) (by omega)
      omega
    rw [toHexStrF_fuel_irrel m ((m + 1) / 16) ((m + 1) / 16) hd (le_refl _)]

theorem toHexStr_big (n : Nat) (h : 256 ≤ n) :
    toHexStr n =
      toHexStr (n / 256) ++ [hexCharCode (n / 16 % 16), hexCharCode (n % 16)] := by
  rw [toHexStr_step n (by omega), toHexStr_step (n / 16) (Nat.le_div_iff_mul_le (by omega) |>.2 (by omega)),
    Nat.div_div_eq_div_mul]
  simp

theorem hexPairs_append_two (c1 c2 : Nat) (xs : List Nat) (h : xs.length % 2 = 0) :
    hexPairs (xs ++ [c1, c2]) = hexPairs xs ++ [16 * hexCharVal c1 + hexCharVal c2] := by
  induction xs using hexPairs.induct with
  | case1 a b rest ih =>
    simp only [List.cons_append, hexPairs, List.append_eq]
    rw [ih (by simp only [List.length_cons] at h; omega)]
  | case2 t ht =>
    match t, ht with
    | [], _ => simp [hexPairs]
    | [a], _ => simp at h
    | a :: b :: rest, ht => exact ((ht a b rest rfl)).elim

theorem hexToBytes_append_two (ys : List Nat) (c1 c2 : Nat) :
    hexToBytes (ys ++ [c1, c2]) = hexToBytes ys ++ [16 * hexCharVal c1 + hexCharVal c2] := by
  unfold hexToBytes
  rcases Nat.mod_two_eq_zero_or_one ys.length with hp | hp
  · rw [if_neg (by simp [hp]), if_neg (by omega)]
    exact hexPairs_append_two c1 c2 ys hp
  · rw [if_pos (by simp; omega), if_pos (by omega)]
    have hsplit : (48 :: (ys ++ [c1, c2])) = (48 :: ys) ++ [c1, c2] := by simp
    rw [hsplit, hexPairs_append_two c1 c2 (48 :: ys) (by simp; omega)]

theorem beDigitsF_fuel_irrel (fuel1 : Nat) :
    ∀ fuel2 n, n ≤ fuel1 → n ≤ fuel2 → beDigitsF fuel1 n = beDigitsF fuel2 n := by
  induction fuel1 with
  | zero =>
    intro fuel2 n h1 _h2
    have hn : n = 0 := by omega
    subst hn
    cases fuel2 with
    | zero => rfl
    | succ f => simp [beDigitsF]
  | succ f1 ih =>
    intro fuel2 n h1 h2
    cases fuel2 with
    | zero =>
      have hn : n = 0 := by omega
      subst hn
      simp [beDigitsF]
    | succ f2 =>
      simp only [beDigitsF]
      rcases Nat.eq_zero_or_pos n with h0 | h0
      · simp [h0]
      · rw [if_neg (by omega), if_neg (by omega)]
        have hd1 : n / 256 ≤ f1 := by
          have hlt : n / 256 < n := Nat.div_lt_self (by omega) (by omega)
          omega
        have hd2 : n / 256 ≤ f2 := by
          have hlt : n / 256 < n := Nat.div_lt_self (by omega) (by omega)
          omega
        rw [ih f2 (n / 256) hd1 hd2]

theorem beDigits_zero : beDigits 0 = [] := rfl

theorem beDigits_pos (n : Nat) (h : n ≠ 0) :
    beDigits n = beDigits (n / 256) ++ [n % 256] := by
  unfold beDigits
  cases n with
  | zero => omega
  | succ m =>
    simp only [beDigitsF]
    rw [if_neg (show ¬(m + 1 = 0) by omega)]
    have hd : (m + 1) / 256 ≤ m := by
      have hlt : (m + 1) / 256 < m + 1 := Nat.div_lt_self (by omega) (by omega)
      omega
    rw [beDigitsF_fuel_irrel m ((m + 1) / 256) ((m + 1) / 256) hd (le_refl _)]

theorem saltPreimage_eq_minimalBe (n : Nat) : saltPreimage n = minimalBeBytes n := by
  induction n using Nat.strong_induction_on with
  | _ n ih =>
    rcases Nat.lt_or_ge n 256 with hsmall | hbig
    · have hval : saltPreimage n = [n] := by
        rcases Nat.lt_or_ge n 16 with h16 | h16
        · unfold saltPreimage hexToBytes
          rw [toHexStr_small n h16]
          rw [if_pos (by simp)]
          show (16 * hexCharVal 48 + hexCharVal (hexCharCode n)) :: hexPairs [] = [n]
          have h48 : hexCharVal 48 = 0 := by unfold hexCharVal; split <;> omega
          rw [h48, hexCharVal_hexCharCode n h16]
          simp [hexPairs]
        · unfold saltPreimage hexToBytes
          rw [toHexStr_step n h16, toHexStr_small (n / 16) (by omega)]
          rw [if_neg (by simp)]
          show (16 * hexCharVal (hexCharCode (n / 16)) + hexCharVal (hexCharCode (n % 16))) ::
            hexPairs [] = [n]
          rw [hexCharVal_hexCharCode (n / 16) (by omega),
            hexCharVal_hexCharCode (n % 16) (by omega)]
          simp only [hexPairs]
          congr 1
          omega
      rw [hval]
      unfold minimalBeBytes
      rcases Nat.eq_zero_or_pos n with h0 | h0
      · simp [h0]
      · rw [if_neg (by omega), beDigits_pos n (by omega),
          Nat.div_eq_of_lt hsmall, beDigits_zero, Nat.mod_eq_of_lt hsmall]
        simp
    · have hstep : saltPreimage n = saltPreimage (n / 256) ++ [n % 256] := by
        unfold saltPreimage
        rw [toHexStr_big n hbig, hexToBytes_append_two]
        rw [hexCharVal_hexCharCode (n / 16 % 16) (by omega),
          hexCharVal_hexCharCode (n % 16) (by omega)]
        congr 2
        omega
      rw [hstep, ih (n / 256) (by omega)]
      unfold minimalBeBytes
      rw [if_neg (by omega), beDigits_pos n (by omega)]
      rw [if_neg (by omega)]

/-! ### Big-endian arithmetic: decoding, bounds, fixed-width roundtrip -/

theorem bytesToNatBE_append_single (xs : List Nat) (b : Nat) :
    bytesToNatBE (xs ++ [b]) = bytesToNatBE xs * 256 + b := by
  unfold bytesToNatBE
  rw [List.foldl_append]
  rfl

theorem foldl_mulAdd_shift (ys : List Nat) :
    ∀ a : Nat, ys.foldl (fun a b => a * 256 + b) a =
      a * 256 ^ ys.length + ys.foldl (fun a b => a * 256 + b) 0 := by
  induction ys with
  | nil => intro a; simp
  | cons y t ih =>
    intro a
    simp only [List.foldl_cons, List.length_cons]
    rw [ih (a * 256 + y), ih (0 * 256 + y)]
    ring

theorem bytesToNatBE_append (xs ys : List Nat) :
    bytesToNatBE (xs ++ ys) = bytesToNatBE xs * 256 ^ ys.length + bytesToNatBE ys := by
  unfold bytesToNatBE
  rw [List.foldl_append, foldl_mulAdd_shift]

theorem bytesToNatBE_lt (ys : List Nat) (h : ∀ b ∈ ys, b < 256) :
    bytesToNatBE ys < 256 ^ ys.length := by
  induction ys with
  | nil => simp [bytesToNatBE]
  | cons y t ih =>
    have hy : y < 256 := h y (by simp)
    have ht : bytesToNatBE t < 256 ^ t.length := ih (fun b hb => h b (by simp [hb]))
    show List.foldl (fun a b => a * 256 + b) (0 * 256 + y) t < 256 ^ (y :: t).length
    rw [foldl_mulAdd_shift]
    have hb : bytesToNatBE t = List.foldl (fun a b => a * 256 + b) 0 t := rfl
    rw [← hb]
    simp only [List.length_cons]
    calc (0 * 256 + y) * 256 ^ t.length + bytesToNatBE t
        < (0 * 256 + y) * 256 ^ t.length + 256 ^ t.length := by omega
      _ = (y + 1) * 256 ^ t.length := by ring
      _ ≤ 256 * 256 ^ t.length := by
          exact Nat.mul_le_mul_right _ (by omega)
      _ = 256 ^ (t.length + 1) := by ring

theorem natToBytesBE_roundtrip (ys : List Nat) (h : ∀ b ∈ ys, b < 256) :
    natToBytesBE ys.length (bytesToNatBE ys) = ys := by
  induction ys using List.reverseRecOn with
  | nil => rfl
  | append_singleton xs b ih =>
    have hb : b < 256 := h b (by simp)
    rw [bytesToNatBE_append_single]
    have hlen : (xs ++ [b]).length = xs.length + 1 := by simp
    rw [hlen]
    show natToBytesBE xs.length ((bytesToNatBE xs * 256 + b) / 256) ++
      [(bytesToNatBE xs * 256 + b) % 256] = xs ++ [b]
    have hdiv : (bytesToNatBE xs * 256 + b) / 256 = bytesToNatBE xs := by omega
    have hmod : (bytesToNatBE xs * 256 + b) % 256 = b := by omega
    rw [hdiv, hmod, ih (fun x hx => h x (by simp [hx]))]

theorem bytesToNatBE_beDigits (n : Nat) : bytesToNatBE (beDigits n) = n := by
  induction n using Nat.strong_induction_on with
  | _ n ih =>
    rcases Nat.eq_zero_or_pos n with h0 | h0
    · subst h0; rfl
    · rw [beDigits_pos n (by omega), bytesToNatBE_append_single,
        ih (n / 256) (Nat.div_lt_self (by omega) (by omega))]
      omega

theorem bytesToNatBE_minimalBe (n : Nat) : bytesToNatBE (minimalBeBytes n) = n := by
  unfold minimalBeBytes
  rcases Nat.eq_zero_or_pos n with h0 | h0
  · simp [h0]; rfl
  · rw [if_neg (by omega)]
    exact bytesToNatBE_beDigits n

theorem beDigits_leading_ne_zero (n : Nat) (h : 0 < n) :
    ∃ b t, beDigits n = b :: t ∧ b ≠ 0 := by
  induction n using Nat.strong_induction_on with
  | _ n ih =>
    rcases Nat.lt_or_ge n 256 with hsmall | hbig
    · refine ⟨n % 256, [], ?_, by omega⟩
      rw [beDigits_pos n (by omega), Nat.div_eq_of_lt hsmall, beDigits_zero]
      simp
    · obtain ⟨b, t, hbt, hb⟩ := ih (n / 256)
        (Nat.div_lt_self (by omega) (by omega)) (by omega)
      exact ⟨b, t ++ [n % 256], by rw [beDigits_pos n (by omega), hbt]; simp, hb⟩

/-! ### The search loop: first-match characterisation and exhaustion -/

theorem isPrefixOf_cons2 (a b : Nat) (p q : List Nat) :
    (a :: b :: p).isPrefixOf (a :: b :: q) = p.isPrefixOf q := by
  simp [List.isPrefixOf]

theorem vanityLoop_zero (keccak : Bytes → Bytes) (deployer initCodeHash : Bytes)
    (pfx : List Nat) (i : Nat) :
    vanityLoop keccak deployer initCodeHash pfx i 0 = none := rfl

theorem vanityLoop_succ (keccak : Bytes → Bytes) (deployer initCodeHash : Bytes)
    (pfx : List Nat) (i fuel : Nat) :
    vanityLoop keccak deployer initCodeHash pfx i (fuel + 1) =
      if matchAt keccak deployer initCodeHash pfx i then
        some { salt := generateSalt keccak i
               address := getCreate2Address keccak deployer (generateSalt keccak i) initCodeHash }
      else
        vanityLoop keccak deployer initCodeHash pfx (i + 1) fuel := by
  simp only [vanityLoop, matchAt]

theorem vanityLoop_some_spec (keccak : Bytes → Bytes) (deployer initCodeHash : Bytes)
    (pfx : List Nat) :
    ∀ fuel i r, vanityLoop keccak deployer initCodeHash pfx i fuel = some r →
      ∃ j, i ≤ j ∧ j < i + fuel ∧
        matchAt keccak deployer initCodeHash pfx j = true ∧
        (∀ m, i ≤ m → m < j → matchAt keccak deployer initCodeHash pfx m = false) ∧
        r.salt = generateSalt keccak j ∧
        r.address = getCreate2Address keccak deployer (generateSalt keccak j) initCodeHash := by
  intro fuel
  induction fuel with
  | zero => intro i r hr; rw [vanityLoop_zero] at hr; exact absurd hr (by simp)
  | succ f ih =>
    intro i r hr
    rw [vanityLoop_succ] at hr
    by_cases hm : matchAt keccak deployer initCodeHash pfx i = true
    · rw [if_pos hm] at hr
      refine ⟨i, le_refl i, by omega, hm, fun m h1 h2 => by omega, ?_, ?_⟩
      · rw [← Option.some_inj.mp hr]
      · rw [← Option.some_inj.mp hr]
    · rw [if_neg hm] at hr
      obtain ⟨j, hj1, hj2, hj3, hj4, hj5, hj6⟩ := ih (i + 1) r hr
      refine ⟨j, by omega, by omega, hj3, ?_, hj5, hj6⟩
      intro m h1 h2
      rcases Nat.eq_or_lt_of_le h1 with heq | hlt
      · rw [← heq]; exact Bool.not_eq_true _ ▸ (by simpa using hm)
      · exact hj4 m (by omega) h2

theorem vanityLoop_none_of_no_match (keccak : Bytes → Bytes) (deployer initCodeHash : Bytes)
    (pfx : List Nat) :
    ∀ fuel i, (∀ m, i ≤ m → m < i + fuel →
        matchAt keccak deployer initCodeHash pfx m = false) →
      vanityLoop keccak deployer initCodeHash pfx i fuel = none := by
  intro fuel
  induction fuel with
  | zero => intro i _; exact vanityLoop_zero keccak deployer initCodeHash pfx i
  | succ f ih =>
    intro i hno
    rw [vanityLoop_succ, if_neg (by simp [hno i (le_refl i) (by omega)])]
    exact ih (i + 1) (fun m h1 h2 => hno m (by omega) (by omega))

theorem vanityLoopLogged_fst (keccak : Bytes → Bytes) (deployer initCodeHash : Bytes)
    (pfx : List Nat) :
    ∀ fuel i, (vanityLoopLogged keccak deployer initCodeHash pfx i fuel).1 =
      vanityLoop keccak deployer initCodeHash pfx i fuel := by
  intro fuel
  induction fuel with
  | zero => intro i; rfl
  | succ f ih =>
    intro i
    simp only [vanityLoopLogged, vanityLoop]
    by_cases hm : (48 :: 120 :: pfx).isPrefixOf
        (48 :: 120 :: bytesToHex (getCreate2Address keccak deployer (generateSalt keccak i) initCodeHash)) = true
    · rw [if_pos hm, if_pos hm]
    · rw [if_neg hm, if_neg hm]
      by_cases hl : i % 100000 = 0 ∧ 0 < i
      · rw [if_pos hl]; exact ih (i + 1)
      · rw [if_neg hl]; exact ih (i + 1)

/-! ### Claim theorems -/

/-- C1: for every deployer, init-code hash, prefix and positive iteration bound,
a successful `findVanitySalt` result has an address whose lowercase hex digits
(`0x` marker stripped) start with the lowercased desired prefix. -/
theorem findVanitySalt_prefix_correct (keccak : Bytes → Bytes)
    (deployer initCodeHash : Bytes) (desiredPrefix : List Nat) (maxIterations : Nat)
    (r : SearchResult) (_hmax : 0 < maxIterations)
    (hr : findVanitySalt keccak deployer initCodeHash desiredPrefix maxIterations = some r) :
    (toLowerStr desiredPrefix).isPrefixOf (bytesToHex r.address) = true := by
  unfold findVanitySalt at hr
  obtain ⟨j, _, _, hj3, _, _, hj6⟩ :=
    vanityLoop_some_spec keccak deployer initCodeHash (toLowerStr desiredPrefix)
      maxIterations 0 r hr
  unfold matchAt at hj3
  rw [isPrefixOf_cons2] at hj3
  rw [hj6]
  exact hj3

/-- C1 witness: with a constant mock hash whose output is thirty-two `0xab`
bytes, searching for prefix `"A"` (code 65) with one iteration succeeds and the
address's lowercase digits start with `"a"` (code 97). -/
theorem findVanitySalt_prefix_correct_witness :
    (toLowerStr [65]).isPrefixOf
      (bytesToHex (SearchResult.mk (List.replicate 32 171) (List.replicate 20 171)).address) = true :=
  findVanitySalt_prefix_correct (fun _ => List.replicate 32 171)
    (List.replicate 20 1) (List.replicate 32 2) [65] 1
    (SearchResult.mk (List.replicate 32 171) (List.replicate 20 171))
    (by decide) (by decide)

/-- C2: with a positive iteration bound, a successful search returns the data of
the smallest matching counter `i` in `[0, maxIterations)`: `i` matches, every
smaller counter fails the test, and the returned pair is built from `i`. -/
theorem findVanitySalt_minimal_counter (keccak : Bytes → Bytes)
    (deployer initCodeHash : Bytes) (desiredPrefix : List Nat) (maxIterations : Nat)
    (r : SearchResult) (_hmax : 0 < maxIterations)
    (hr : findVanitySalt keccak deployer initCodeHash desiredPrefix maxIterations = some r) :
    ∃ i, i < maxIterations ∧
      matchAt keccak deployer initCodeHash (toLowerStr desiredPrefix) i = true ∧
      (∀ j, j < i → matchAt keccak deployer initCodeHash (toLowerStr desiredPrefix) j = false) ∧
      r.salt = generateSalt keccak i ∧
      r.address = getCreate2Address keccak deployer (generateSalt keccak i) initCodeHash := by
  unfold findVanitySalt at hr
  obtain ⟨j, _, hj2, hj3, hj4, hj5, hj6⟩ :=
    vanityLoop_some_spec keccak deployer initCodeHash (toLowerStr desiredPrefix)
      maxIterations 0 r hr
  exact ⟨j, by omega, hj3, fun m hm => hj4 m (by omega) hm, hj5, hj6⟩

/-- C2 witness: the minimal-counter property instantiated at the constant mock
hash, where the very first counter matches. -/
theorem findVanitySalt_minimal_counter_witness :
    ∃ i, i < 1 ∧
      matchAt (fun _ => List.replicate 32 171) (List.replicate 20 1) (List.replicate 32 2)
        (toLowerStr [65]) i = true ∧
      (∀ j, j < i →
        matchAt (fun _ => List.replicate 32 171) (List.replicate 20 1) (List.replicate 32 2)
          (toLowerStr [65]) j = false) ∧
      (SearchResult.mk (List.replicate 32 171) (List.replicate 20 171)).salt =
        generateSalt (fun _ => List.replicate 32 171) i ∧
      (SearchResult.mk (List.replicate 32 171) (List.replicate 20 171)).address =
        getCreate2Address (fun _ => List.replicate 32 171) (List.replicate 20 1)
          (generateSalt (fun _ => List.replicate 32 171) i) (List.replicate 32 2) :=
  findVanitySalt_minimal_counter (fun _ => List.replicate 32 171)
    (List.replicate 20 1) (List.replicate 32 2) [65] 1
    (SearchResult.mk (List.replicate 32 171) (List.replicate 20 171))
    (by decide) (by decide)

/-- C3: if no counter below `maxIterations` passes the prefix test, the search
returns the explicit absence value `none` (the embedding is a total function,
so no exception is possible; by C1 a returned pair always matches). -/
theorem findVanitySalt_exhaustion_none (keccak : Bytes → Bytes)
    (deployer initCodeHash : Bytes) (desiredPrefix : List Nat) (maxIterations : Nat)
    (hno : ∀ i, i < maxIterations →
      matchAt keccak deployer initCodeHash (toLowerStr desiredPrefix) i = false) :
    findVanitySalt keccak deployer initCodeHash desiredPrefix maxIterations = none := by
  unfold findVanitySalt
  exact vanityLoop_none_of_no_match keccak deployer initCodeHash (toLowerStr desiredPrefix)
    maxIterations 0 (fun m _ hm => hno m (by omega))

/-- C3 witness: with the constant `0xab...` mock hash and prefix `"f"`
(code 102), no counter below 3 matches and the search returns `none`. -/
theorem findVanitySalt_exhaustion_none_witness :
    findVanitySalt (fun _ => List.replicate 32 171) (List.replicate 20 1)
      (List.replicate 32 2) [102] 3 = none :=
  findVanitySalt_exhaustion_none (fun _ => List.replicate 32 171)
    (List.replicate 20 1) (List.replicate 32 2) [102] 3 (by decide)

/-- C4: `computeAddress` — the hash of `0xff ++ factory ++ salt ++ initCodeHash`
read as `uint256`, truncated to `uint160`, re-encoded as an address — equals the
last 20 bytes of that keccak output bit-for-bit, and coincides with the script's
`getCreate2Address` derivation. -/
theorem computeAddress_last_twenty (keccak : Bytes → Bytes)
    (self salt bytecodeHash : Bytes)
    (_hself : self.length = 20) (_hsalt : salt.length = 32) (_hhash : bytecodeHash.length = 32)
    (hlen : (keccak (255 :: (self ++ (salt ++ bytecodeHash)))).length = 32)
    (hbytes : ∀ b ∈ keccak (255 :: (self ++ (salt ++ bytecodeHash))), b < 256) :
    computeAddress keccak self salt bytecodeHash =
      (keccak (255 :: (self ++ (salt ++ bytecodeHash)))).drop
        ((keccak (255 :: (self ++ (salt ++ bytecodeHash)))).length - 20) ∧
    computeAddress keccak self salt bytecodeHash =
      getCreate2Address keccak self salt bytecodeHash := by
  have key : computeAddress keccak self salt bytecodeHash =
      (keccak (255 :: (self ++ (salt ++ bytecodeHash)))).drop 12 := by
    unfold computeAddress
    have hsplit : keccak (255 :: (self ++ (salt ++ bytecodeHash))) =
        (keccak (255 :: (self ++ (salt ++ bytecodeHash)))).take 12 ++
        (keccak (255 :: (self ++ (salt ++ bytecodeHash)))).drop 12 :=
      (List.take_append_drop 12 _).symm
    have hdlen : ((keccak (255 :: (self ++ (salt ++ bytecodeHash)))).drop 12).length = 20 := by
      rw [List.length_drop, hlen]
    have hdbytes : ∀ b ∈ (keccak (255 :: (self ++ (salt ++ bytecodeHash)))).drop 12, b < 256 :=
      fun b hb => hbytes b (List.mem_of_mem_drop hb)
    have hdecomp : bytesToNatBE (keccak (255 :: (self ++ (salt ++ bytecodeHash)))) =
        bytesToNatBE ((keccak (255 :: (self ++ (salt ++ bytecodeHash)))).take 12) * 256 ^ 20 +
        bytesToNatBE ((keccak (255 :: (self ++ (salt ++ bytecodeHash)))).drop 12) := by
      conv_lhs => rw [hsplit]
      rw [bytesToNatBE_append, hdlen]
    have hpow : (2 : Nat) ^ 160 = 256 ^ 20 := by norm_num
    have hlt : bytesToNatBE ((keccak (255 :: (self ++ (salt ++ bytecodeHash)))).drop 12) <
        256 ^ 20 := by
      have := bytesToNatBE_lt _ hdbytes
      rwa [hdlen] at this
    rw [hpow, hdecomp]
    rw [Nat.mul_comm (bytesToNatBE _) (256 ^ 20), Nat.mul_add_mod, Nat.mod_eq_of_lt hlt]
    have := natToBytesBE_roundtrip _ hdbytes
    rwa [hdlen] at this
  constructor
  · rw [key, hlen]
  · rw [key]
    rfl

/-- C4 witness: the equalities at a mock hash returning the bytes `0..31`, with
20-byte factory and 32-byte salt and init-code-hash inputs. -/
theorem computeAddress_last_twenty_witness :
    computeAddress (fun _ => List.range 32) (List.replicate 20 1) (List.replicate 32 2)
        (List.replicate 32 3) = (List.range 32).drop 12 ∧
    computeAddress (fun _ => List.range 32) (List.replicate 20 1) (List.replicate 32 2)
        (List.replicate 32 3) =
      getCreate2Address (fun _ => List.range 32) (List.replicate 20 1) (List.replicate 32 2)
        (List.replicate 32 3) :=
  computeAddress_last_twenty (fun _ => List.range 32) (List.replicate 20 1)
    (List.replicate 32 2) (List.replicate 32 3)
    (by decide) (by decide) (by decide) (by decide) (by decide)

/-- C5: the candidate salt for counter `i` is the hash of the minimal big-endian
byte encoding of `i` (`minimalBeBytes`): that encoding decodes back to `i`, is
nonempty, has no leading zero byte unless it is the single byte `0`, and salt
generation for the same `i` is stable across calls. -/
theorem generateSalt_minimal_be (keccak : Bytes → Bytes) (i : Nat) :
    generateSalt keccak i = keccak (minimalBeBytes i) ∧
    bytesToNatBE (minimalBeBytes i) = i ∧
    minimalBeBytes i ≠ [] ∧
    (∀ b t, minimalBeBytes i = b :: t → t ≠ [] → b ≠ 0) ∧
    generateSalt keccak i = generateSalt keccak i := by
  refine ⟨?_, bytesToNatBE_minimalBe i, ?_, ?_, rfl⟩
  · unfold generateSalt
    rw [saltPreimage_eq_minimalBe]
  · unfold minimalBeBytes
    rcases Nat.eq_zero_or_pos i with h0 | h0
    · simp [h0]
    · rw [if_neg (by omega)]
      obtain ⟨b, t, hbt, _⟩ := beDigits_leading_ne_zero i h0
      simp [hbt]
  · intro b t hbt _ht
    unfold minimalBeBytes at hbt
    rcases Nat.eq_zero_or_pos i with h0 | h0
    · rw [if_pos h0] at hbt
      cases hbt
      exact absurd rfl _ht
    · rw [if_neg (by omega)] at hbt
      obtain ⟨b0, t0, hbt0, hb0⟩ := beDigits_leading_ne_zero i h0
      rw [hbt0] at hbt
      cases hbt
      exact hb0

/-- C5 witness: at `i = 300` with the identity as mock hash, the salt preimage
is the two-byte big-endian encoding `[1, 44]` of 300. -/
theorem generateSalt_minimal_be_witness :
    generateSalt (fun bs => bs) 300 = minimalBeBytes 300 ∧
    bytesToNatBE (minimalBeBytes 300) = 300 ∧
    minimalBeBytes 300 ≠ [] ∧
    (∀ b t, minimalBeBytes 300 = b :: t → t ≠ [] → b ≠ 0) ∧
    generateSalt (fun bs => bs) 300 = generateSalt (fun bs => bs) 300 :=
  generateSalt_minimal_be (fun bs => bs) 300

/-- C6: address derivation (both the script's and the factory contract's) and
the whole salt search are pure functions of their arguments — two applications
to identical inputs are definitionally the same value, with no external state
anywhere in the embedding. -/
theorem derive_search_deterministic (keccak : Bytes → Bytes)
    (deployer salt initCodeHash : Bytes) (desiredPrefix : List Nat) (maxIterations : Nat) :
    getCreate2Address keccak deployer salt initCodeHash =
      getCreate2Address keccak deployer salt initCodeHash ∧
    computeAddress keccak deployer salt initCodeHash =
      computeAddress keccak deployer salt initCodeHash ∧
    findVanitySalt keccak deployer initCodeHash desiredPrefix maxIterations =
      findVanitySalt keccak deployer initCodeHash desiredPrefix maxIterations :=
  ⟨rfl, rfl, rfl⟩

/-- C7: supplying the desired prefix already lowercased yields exactly the same
search result as supplying it in mixed case: the search lowercases the prefix
once on entry, and lowercasing is idempotent. -/
theorem findVanitySalt_case_insensitive (keccak : Bytes → Bytes)
    (deployer initCodeHash : Bytes) (desiredPrefix : List Nat) (maxIterations : Nat) :
    findVanitySalt keccak deployer initCodeHash (toLowerStr desiredPrefix) maxIterations =
      findVanitySalt keccak deployer initCodeHash desiredPrefix maxIterations := by
  unfold findVanitySalt
  have hidem : toLowerStr (toLowerStr desiredPrefix) = toLowerStr desiredPrefix := by
    unfold toLowerStr
    rw [List.map_map]
    apply List.map_congr_left
    intro c _
    show lowerCode (lowerCode c) = lowerCode c
    unfold lowerCode
    by_cases h : 65 ≤ c ∧ c ≤ 90
    · rw [if_pos h, if_neg (by omega)]
    · rw [if_neg h, if_neg h]
  rw [hidem]

/-- C8: with `maxIterations` omitted the search runs with the bound 100,000,000
exactly, and exhausting that bound (no counter below it matches) is a hard
`none`: the default call's result is fully determined by the first
100,000,000 counters, with no retry or widening anywhere in the function. -/
theorem findVanitySalt_default_bound (keccak : Bytes → Bytes)
    (deployer initCodeHash : Bytes) (desiredPrefix : List Nat)
    (hno : ∀ i, i < 100000000 →
      matchAt keccak deployer initCodeHash (toLowerStr desiredPrefix) i = false) :
    findVanitySaltDefault keccak deployer initCodeHash desiredPrefix =
      findVanitySalt keccak deployer initCodeHash desiredPrefix 100000000 ∧
    findVanitySaltDefault keccak deployer initCodeHash desiredPrefix = none := by
  constructor
  · rfl
  · show findVanitySalt keccak deployer initCodeHash desiredPrefix defaultMaxIterations = none
    unfold findVanitySalt
    exact vanityLoop_none_of_no_match keccak deployer initCodeHash (toLowerStr desiredPrefix)
      defaultMaxIterations 0
      (fun m _ hm => hno m (by simp only [defaultMaxIterations] at hm; omega))

/-- C8 witness: under the constant `0xab...` mock hash no counter ever matches
prefix `"f"` (code 102), so the default-bound call both equals the explicit
100,000,000-iteration call and returns `none`. -/
theorem findVanitySalt_default_bound_witness :
    findVanitySaltDefault (fun _ => List.replicate 32 171) (List.replicate 20 1)
        (List.replicate 32 2) [102] =
      findVanitySalt (fun _ => List.replicate 32 171) (List.replicate 20 1)
        (List.replicate 32 2) [102] 100000000 ∧
    findVanitySaltDefault (fun _ => List.replicate 32 171) (List.replicate 20 1)
        (List.replicate 32 2) [102] = none :=
  findVanitySalt_default_bound (fun _ => List.replicate 32 171) (List.replicate 20 1)
    (List.replicate 32 2) [102] (fun _ _ => rfl)

/-- C9: the periodic progress report has no effect on the search outcome: the
variant that records every `console.log` iteration count returns, in its first
component, exactly the plain search's result, for every input. -/
theorem findVanitySalt_logging_no_effect (keccak : Bytes → Bytes)
    (deployer initCodeHash : Bytes) (desiredPrefix : List Nat) (maxIterations : Nat) :
    (findVanitySaltLogged keccak deployer initCodeHash desiredPrefix maxIterations).1 =
      findVanitySalt keccak deployer initCodeHash desiredPrefix maxIterations := by
  unfold findVanitySaltLogged findVanitySalt
  exact vanityLoopLogged_fst keccak deployer initCodeHash (toLowerStr desiredPrefix)
    maxIterations 0

/-- C10: a successful `SearchResult` is internally consistent: its address is
the CREATE2 derivation for the very salt it carries, and that salt is the
candidate `generateSalt i` of some counter `i` below the bound — the pair is
never assembled from mismatched iterations. -/
theorem findVanitySalt_result_consistent (keccak : Bytes → Bytes)
    (deployer initCodeHash : Bytes) (desiredPrefix : List Nat) (maxIterations : Nat)
    (r : SearchResult)
    (hr : findVanitySalt keccak deployer initCodeHash desiredPrefix maxIterations = some r) :
    r.address = getCreate2Address keccak deployer r.salt initCodeHash ∧
    ∃ i, i < maxIterations ∧ r.salt = generateSalt keccak i := by
  unfold findVanitySalt at hr
  obtain ⟨j, _, hj2, _, _, hj5, hj6⟩ :=
    vanityLoop_some_spec keccak deployer initCodeHash (toLowerStr desiredPrefix)
      maxIterations 0 r hr
  exact ⟨by rw [hj6, hj5], j, by omega, hj5⟩

/-- C10 witness: the consistency of the concrete result found by the constant
`0xab...` mock hash in one iteration. -/
theorem findVanitySalt_result_consistent_witness :
    (SearchResult.mk (List.replicate 32 171) (List.replicate 20 171)).address =
      getCreate2Address (fun _ => List.replicate 32 171) (List.replicate 20 1)
        (SearchResult.mk (List.replicate 32 171) (List.replicate 20 171)).salt
        (List.replicate 32 2) ∧
    ∃ i, i < 1 ∧
      (SearchResult.mk (List.replicate 32 171) (List.replicate 20 171)).salt =
        generateSalt (fun _ => List.replicate 32 171) i :=
  findVanitySalt_result_consistent (fun _ => List.replicate 32 171)
    (List.replicate 20 1) (List.replicate 32 2) [65] 1
    (SearchResult.mk (List.replicate 32 171) (List.replicate 20 171))
    (by decide)
